import Mathlib

/-!
# Camp Planner V2 — verification of the schedule data model

Shallow embedding of the schedule document model of `src/App.jsx`:
the sparse assignment map keyed by `"campIndex-weekIndex"` strings,
the list-management mutations (`handleUpdateList`, `ManagementModal`),
the cell write (`handleScheduleChange`), the per-kid weekly summary
(`PrintableSummary`), the kid colour function (`ScheduleGrid.getKidColor`)
and the schedule-id generator (`Dashboard.handleCreateSchedule`).

JavaScript object keys are strings; we model them as `List Char`.
JavaScript arrays of strings are `List String`.  A JavaScript object used
as a map is an association list `List (List Char × α)` whose lookup takes
the first matching entry (a real JS object has no duplicate keys, and all
mutations below preserve that).
-/

namespace CampPlanner

/-- Decimal digit list of a natural number, as produced by JavaScript
template-literal conversion `${n}` for a non-negative integer.  Structural
fuel recursion (the fuel `n+1` always suffices) so that the kernel can
evaluate it. -/
def natDigitsAux : Nat → Nat → List Char
  | 0, _ => []
  | fuel + 1, n =>
    if n < 10 then [Nat.digitChar n]
    else natDigitsAux fuel (n / 10) ++ [Nat.digitChar (n % 10)]

/-- Decimal rendering of `n`, e.g. `natDigits 12 = ['1','2']`. -/
def natDigits (n : Nat) : List Char := natDigitsAux (n + 1) n

theorem natDigitsAux_fuel : ∀ f g n, n < f → n < g →
    natDigitsAux f n = natDigitsAux g n := by
  intro f
  induction f with
  | zero => intro g n h; omega
  | succ f ih =>
    intro g n hf hg
    cases g with
    | zero => omega
    | succ g =>
      simp only [natDigitsAux]
      by_cases h10 : n < 10
      · simp [h10]
      · have hdiv : n / 10 < n := Nat.div_lt_self (by omega) (by omega)
        simp only [h10, if_false]
        rw [ih g (n / 10) (by omega) (by omega)]

/-- Unfolding equation for `natDigits`, hiding the fuel. -/
theorem natDigits_eq (n : Nat) :
    natDigits n = if n < 10 then [Nat.digitChar n]
                  else natDigits (n / 10) ++ [Nat.digitChar (n % 10)] := by
  by_cases h10 : n < 10
  · simp [natDigits, natDigitsAux, h10]
  · have hdiv : n / 10 < n := Nat.div_lt_self (by omega) (by omega)
    rw [if_neg h10, natDigits, natDigitsAux, if_neg h10,
      natDigitsAux_fuel n (n / 10 + 1) (n / 10) (by omega) (by omega)]
    rfl

theorem natDigits_ne_nil (n : Nat) : natDigits n ≠ [] := by
  induction n using Nat.strong_induction_on with
  | _ n ih =>
    rw [natDigits_eq]
    by_cases h10 : n < 10
    · simp [h10]
    · have hdiv : n / 10 < n := Nat.div_lt_self (by omega) (by omega)
      simp [h10]

theorem digitChar_ne_dash : ∀ k, k < 10 → Nat.digitChar k ≠ '-' := by decide

theorem digitChar_inj : ∀ a, a < 10 → ∀ b, b < 10 →
    Nat.digitChar a = Nat.digitChar b → a = b := by decide

theorem dash_not_mem_natDigits (n : Nat) : '-' ∉ natDigits n := by
  induction n using Nat.strong_induction_on with
  | _ n ih =>
    rw [natDigits_eq]
    by_cases h10 : n < 10
    · simp [h10, Ne.symm (digitChar_ne_dash n h10)]
    · have hdiv : n / 10 < n := Nat.div_lt_self (by omega) (by omega)
      simp only [h10, if_false, List.mem_append, List.mem_singleton]
      push_neg
      exact ⟨ih _ hdiv, Ne.symm (digitChar_ne_dash _ (Nat.mod_lt n (by omega)))⟩

theorem natDigits_inj : ∀ m n, natDigits m = natDigits n → m = n := by
  intro m
  induction m using Nat.strong_induction_on with
  | _ m ih =>
    intro n h
    by_cases hm : m < 10 <;> by_cases hn : n < 10
    · rw [natDigits_eq m, if_pos hm, natDigits_eq n, if_pos hn] at h
      exact digitChar_inj m hm n hn (List.singleton_injective h)
    · rw [natDigits_eq m, if_pos hm, natDigits_eq n, if_neg hn] at h
      exfalso
      have hlen := congrArg List.length h
      simp only [List.length_singleton, List.length_append] at hlen
      have hne := natDigits_ne_nil (n / 10)
      have h0 : (natDigits (n / 10)).length = 0 := by omega
      exact hne (List.length_eq_zero.mp h0)
    · rw [natDigits_eq m, if_neg hm, natDigits_eq n, if_pos hn] at h
      exfalso
      have hlen := congrArg List.length h
      simp only [List.length_singleton, List.length_append] at hlen
      have hne := natDigits_ne_nil (m / 10)
      have h0 : (natDigits (m / 10)).length = 0 := by omega
      exact hne (List.length_eq_zero.mp h0)
    · rw [natDigits_eq m, if_neg hm, natDigits_eq n, if_neg hn] at h
      have hlen : [Nat.digitChar (m % 10)].length = [Nat.digitChar (n % 10)].length := rfl
      obtain ⟨h1, h2⟩ := List.append_inj' h hlen
      have hdiv : m / 10 < m := Nat.div_lt_self (by omega) (by omega)
      have hq : m / 10 = n / 10 := ih _ hdiv _ h1
      have hr : m % 10 = n % 10 := by
        have := List.singleton_injective h2
        exact digitChar_inj _ (Nat.mod_lt m (by omega)) _ (Nat.mod_lt n (by omega)) this
      omega

/-- The assignment-map key for cell `(campIndex, weekIndex)`: the source
builds the JS string `` `${campIndex}-${weekIndex}` ``. -/
def cellKey (c w : Nat) : List Char := natDigits c ++ '-' :: natDigits w

theorem append_dash_inj : ∀ (l₁ l₂ l₃ l₄ : List Char), '-' ∉ l₁ → '-' ∉ l₃ →
    l₁ ++ '-' :: l₂ = l₃ ++ '-' :: l₄ → l₁ = l₃ ∧ l₂ = l₄ := by
  intro l₁
  induction l₁ with
  | nil =>
    intro l₂ l₃ l₄ _ h₃ h
    cases l₃ with
    | nil => simpa using h
    | cons b t =>
      exfalso
      simp only [List.nil_append, List.cons_append, List.cons.injEq] at h
      exact h₃ (h.1 ▸ List.mem_cons_self b t)
  | cons a t₁ ih =>
    intro l₂ l₃ l₄ h₁ h₃ h
    cases l₃ with
    | nil =>
      exfalso
      simp only [List.nil_append, List.cons_append, List.cons.injEq] at h
      exact h₁ (h.1 ▸ List.mem_cons_self a t₁)
    | cons b t₃ =>
      simp only [List.cons_append, List.cons.injEq] at h
      have ht := ih l₂ t₃ l₄ (fun hm => h₁ (List.mem_cons_of_mem a hm))
        (fun hm => h₃ (List.mem_cons_of_mem b hm)) h.2
      exact ⟨by rw [h.1, ht.1], ht.2⟩

theorem cellKey_inj {c w c' w' : Nat} (h : cellKey c w = cellKey c' w') :
    c = c' ∧ w = w' := by
  obtain ⟨h1, h2⟩ := append_dash_inj _ _ _ _
    (dash_not_mem_natDigits c) (dash_not_mem_natDigits c') h
  exact ⟨natDigits_inj _ _ h1, natDigits_inj _ _ h2⟩

/-- Lookup in a JS object modelled as an association list: the first entry
whose key matches, as `obj[key]` (which is `undefined`, i.e. `none`, when
the key is absent). -/
def objGet {α : Type} : List (List Char × α) → List Char → Option α
  | [], _ => none
  | p :: rest, k => if p.1 = k then some p.2 else objGet rest k

/-- The JS object spread `{...obj, [key]: v}`: an existing key keeps its
position and gets the new value, a new key is appended. -/
def objSet {α : Type} (m : List (List Char × α)) (k : List Char) (v : α) :
    List (List Char × α) :=
  if k ∈ m.map Prod.fst then m.map (fun p => if p.1 = k then (k, v) else p)
  else m ++ [(k, v)]

/-- Removal of a key from a JS object (used only to compare a
present-but-empty cell with an absent one). -/
def objRemove {α : Type} : List (List Char × α) → List Char → List (List Char × α)
  | [], _ => []
  | p :: rest, k => if p.1 = k then objRemove rest k else p :: objRemove rest k

theorem objGet_map_self {α : Type} (k : List Char) (v : α) :
    ∀ m : List (List Char × α), k ∈ m.map Prod.fst →
    objGet (m.map (fun p => if p.1 = k then (k, v) else p)) k = some v := by
  intro m
  induction m with
  | nil => intro h; simp at h
  | cons p rest ih =>
    intro hmem
    by_cases hp : p.1 = k
    · simp [objGet, hp]
    · have hrest : k ∈ rest.map Prod.fst := by
        simp only [List.map_cons, List.mem_cons] at hmem
        rcases hmem with h | h
        · exact absurd h.symm hp
        · exact h
      simp only [List.map_cons, if_neg hp, objGet]
      exact ih hrest

theorem objGet_map_ne {α : Type} (k k' : List Char) (v : α) (hne : k' ≠ k) :
    ∀ m : List (List Char × α),
    objGet (m.map (fun p => if p.1 = k then (k, v) else p)) k' = objGet m k' := by
  intro m
  induction m with
  | nil => rfl
  | cons p rest ih =>
    by_cases hp : p.1 = k
    · simp only [List.map_cons, if_pos hp, objGet,
        if_neg (fun hc : k = k' => hne hc.symm), if_neg (fun hc : p.1 = k' => hne (hp ▸ hc).symm)]
      exact ih
    · simp only [List.map_cons, if_neg hp, objGet]
      by_cases hp' : p.1 = k'
      · rw [if_pos hp', if_pos hp']
      · rw [if_neg hp', if_neg hp']
        exact ih

theorem objGet_append_single {α : Type} (k k' : List Char) (v : α) :
    ∀ m : List (List Char × α),
    objGet (m ++ [(k, v)]) k' = if k = k' then (objGet m k').getD v |> some else objGet m k' := by
  intro m
  induction m with
  | nil =>
    by_cases hk : k = k'
    · simp [objGet, hk]
    · simp [objGet, hk]
  | cons p rest ih =>
    by_cases hp : p.1 = k'
    · by_cases hk : k = k' <;> simp [objGet, hp, hk]
    · by_cases hk : k = k'
      · subst hk
        simp [objGet, hp, ih]
      · simp [objGet, hp, hk, ih]

theorem objGet_none_of_not_mem {α : Type} (k : List Char) :
    ∀ m : List (List Char × α), k ∉ m.map Prod.fst → objGet m k = none := by
  intro m
  induction m with
  | nil => intro _; rfl
  | cons p rest ih =>
    intro hmem
    rw [List.map_cons] at hmem
    have hp : p.1 ≠ k := by
      intro hc
      exact hmem (by rw [hc]; exact List.mem_cons_self _ _)
    have hrest : k ∉ rest.map Prod.fst := fun hc => hmem (List.mem_cons_of_mem _ hc)
    rw [objGet, if_neg hp]
    exact ih hrest

theorem objGet_objSet_self {α : Type} (m : List (List Char × α)) (k : List Char) (v : α) :
    objGet (objSet m k v) k = some v := by
  unfold objSet
  by_cases hmem : k ∈ m.map Prod.fst
  · rw [if_pos hmem]
    exact objGet_map_self k v m hmem
  · rw [if_neg hmem, objGet_append_single, if_pos rfl,
      objGet_none_of_not_mem k m hmem]
    rfl

theorem objGet_objSet_ne {α : Type} (m : List (List Char × α)) (k k' : List Char) (v : α)
    (hne : k' ≠ k) : objGet (objSet m k v) k' = objGet m k' := by
  unfold objSet
  by_cases hmem : k ∈ m.map Prod.fst
  · rw [if_pos hmem]
    exact objGet_map_ne k k' v hne m
  · rw [if_neg hmem, objGet_append_single, if_neg (fun hc => hne hc.symm)]

theorem objGet_objRemove {α : Type} (m : List (List Char × α)) (k k' : List Char) :
    objGet (objRemove m k) k' = if k' = k then none else objGet m k' := by
  induction m with
  | nil => simp [objRemove, objGet]
  | cons p rest ih =>
    by_cases hp : p.1 = k
    · rw [objRemove, if_pos hp, ih]
      by_cases hk : k' = k
      · simp [hk]
      · rw [if_neg hk, if_neg hk, objGet, if_neg (by rw [hp]; exact fun hc => hk hc.symm)]
    · rw [objRemove, if_neg hp]
      by_cases hk : k' = k
      · rw [if_pos hk, objGet, if_neg (hk ▸ hp), ih, if_pos hk]
      · rw [if_neg hk, objGet, objGet, ih, if_neg hk]

/-- A JavaScript string, modelled as its character list (so that all
operations, in particular `localeCompare` ordering and `trim`, are
kernel-computable).  We write literals as `"Art".data`. -/
abbrev JStr := List Char

/-- The `ScheduleDocument` persisted shape created by
`Dashboard.handleCreateSchedule` (identity fields `ownerId` and
`collaborators` play no role in any claim and are omitted). -/
structure ScheduleDoc where
  kidName : JStr
  camps : List JStr
  allKids : List JStr
  schedule : List (JStr × List JStr)
  startDate : JStr
  weekCount : Nat

/-- Reading one cell of the assignment map:
`planData.schedule[key] || []` with `key` the `"camp-week"` string.
(A present-but-empty array is truthy in JS, so `x || []` returns a present
value unchanged and `[]` only for an absent key.) -/
def getCell (sched : List (JStr × List JStr)) (c w : Nat) : List JStr :=
  (objGet sched (cellKey c w)).getD []

/-- `handleScheduleChange`: the cell write
`{ ...scheduleData.schedule, [key]: updatedAttendees }` committed as the
new value of the whole `schedule` field. -/
def handleScheduleChange (sched : List (JStr × List JStr)) (c w : Nat)
    (updatedAttendees : List JStr) : List (JStr × List JStr) :=
  objSet sched (cellKey c w) updatedAttendees

/-- C3: `set(c,w,kids)` followed by `get(c,w)` returns exactly `kids`, and
every other previously-set cell — in fact every other key of the assignment
object — is left unchanged: the write is a merge of one key into the full
mapping that never drops unrelated keys. -/
theorem set_get_roundtrip_and_frame (sched : List (JStr × List JStr))
    (c w : Nat) (kids : List JStr) :
    getCell (handleScheduleChange sched c w kids) c w = kids
    ∧ (∀ c' w', ¬(c' = c ∧ w' = w) →
        getCell (handleScheduleChange sched c w kids) c' w' = getCell sched c' w')
    ∧ (∀ k, k ≠ cellKey c w →
        objGet (handleScheduleChange sched c w kids) k = objGet sched k) := by
  refine ⟨?_, ?_, ?_⟩
  · unfold getCell handleScheduleChange
    rw [objGet_objSet_self]
    rfl
  · intro c' w' hne
    unfold getCell handleScheduleChange
    rw [objGet_objSet_ne]
    intro hc
    exact hne (cellKey_inj hc)
  · intro k hk
    exact objGet_objSet_ne _ _ _ _ hk

/-- Witness for C3 at a concrete state: writing `["Ann"]` into cell (0,0)
of a map holding `["Bo"]` at (1,0) round-trips and preserves cell (1,0). -/
theorem set_get_roundtrip_and_frame_witness :
    getCell (handleScheduleChange [(cellKey 1 0, ["Bo".data])] 0 0 ["Ann".data]) 0 0
        = ["Ann".data]
    ∧ getCell (handleScheduleChange [(cellKey 1 0, ["Bo".data])] 0 0 ["Ann".data]) 1 0
        = ["Bo".data] := by
  constructor
  · exact (set_get_roundtrip_and_frame [(cellKey 1 0, ["Bo".data])] 0 0 ["Ann".data]).1
  · rw [(set_get_roundtrip_and_frame [(cellKey 1 0, ["Bo".data])] 0 0 ["Ann".data]).2.1
      1 0 (by decide)]
    decide

/-- JS `String.prototype.trim`: strip whitespace from both ends. -/
def jsTrim (s : JStr) : JStr :=
  ((s.dropWhile Char.isWhitespace).reverse.dropWhile Char.isWhitespace).reverse

/-- The sort `list.sort((a, b) => a.localeCompare(b))`, modelled as sorting
by the lexicographic order on character lists. -/
def sortNames (l : List JStr) : List JStr := List.insertionSort (· ≤ ·) l

/-- `handleUpdateList`: the saved list is sorted and persisted as the new
value of the named list field (`camps` or `allKids`); no other field of the
schedule document is touched. -/
def handleUpdateList (newList : List JStr) : List JStr := sortNames newList

/-- `ManagementModal.handleAddItem`: a blank (after trim) or
already-present name is a no-op; otherwise the trimmed name is appended and
the list re-sorted. -/
def handleAddItem (l : List JStr) (newItem : JStr) : List JStr :=
  if jsTrim newItem ≠ [] ∧ jsTrim newItem ∉ l then sortNames (l ++ [jsTrim newItem])
  else l

/-- `ManagementModal.handleRemoveItem`: `filter(item => item !== itemToRemove)`. -/
def handleRemoveItem (l : List JStr) (itemToRemove : JStr) : List JStr :=
  l.filter (· ≠ itemToRemove)

/-- One modal interaction on a roster list. -/
inductive RosterOp where
  | add : JStr → RosterOp
  | remove : JStr → RosterOp

def applyOp (l : List JStr) : RosterOp → List JStr
  | RosterOp.add name => handleAddItem l name
  | RosterOp.remove name => handleRemoveItem l name

def applyOps (l : List JStr) : List RosterOp → List JStr
  | [] => l
  | op :: rest => applyOps (applyOp l op) rest

theorem handleAddItem_invariant (l : List JStr) (x : JStr)
    (hs : l.Sorted (· ≤ ·)) (hn : l.Nodup) :
    (handleAddItem l x).Sorted (· ≤ ·) ∧ (handleAddItem l x).Nodup := by
  unfold handleAddItem
  by_cases h : jsTrim x ≠ [] ∧ jsTrim x ∉ l
  · rw [if_pos h]
    unfold sortNames
    refine ⟨List.sorted_insertionSort _ _, ?_⟩
    have hperm := List.perm_insertionSort (α := JStr) (· ≤ ·) (l ++ [jsTrim x])
    rw [List.Perm.nodup_iff hperm, List.nodup_append]
    refine ⟨hn, List.nodup_singleton _, ?_⟩
    intro a ha hb
    rw [List.mem_singleton] at hb
    exact h.2 (hb ▸ ha)
  · rw [if_neg h]
    exact ⟨hs, hn⟩

theorem handleRemoveItem_invariant (l : List JStr) (x : JStr)
    (hs : l.Sorted (· ≤ ·)) (hn : l.Nodup) :
    (handleRemoveItem l x).Sorted (· ≤ ·) ∧ (handleRemoveItem l x).Nodup := by
  exact ⟨List.Pairwise.filter _ hs, List.Nodup.filter _ hn⟩

/-- C4: starting from a duplicate-free, sorted list, any sequence of modal
add/remove operations (add being a no-op on a blank or already-present
name) leaves the list duplicate-free and lexicographically sorted. -/
theorem roster_ops_sorted_nodup (l : List JStr) (ops : List RosterOp)
    (hs : l.Sorted (· ≤ ·)) (hn : l.Nodup) :
    (applyOps l ops).Sorted (· ≤ ·) ∧ (applyOps l ops).Nodup := by
  induction ops generalizing l with
  | nil => exact ⟨hs, hn⟩
  | cons op rest ih =>
    rw [applyOps]
    cases op with
    | add name =>
      obtain ⟨h1, h2⟩ := handleAddItem_invariant l name hs hn
      exact ih _ h1 h2
    | remove name =>
      obtain ⟨h1, h2⟩ := handleRemoveItem_invariant l name hs hn
      exact ih _ h1 h2

/-- Witness for C4: a concrete add/add/remove session on `["Bo"]`. -/
theorem roster_ops_sorted_nodup_witness :
    (applyOps ["Bo".data]
        [RosterOp.add "Ann".data, RosterOp.add "Ann".data,
         RosterOp.remove "Bo".data]).Sorted (· ≤ ·)
    ∧ (applyOps ["Bo".data]
        [RosterOp.add "Ann".data, RosterOp.add "Ann".data,
         RosterOp.remove "Bo".data]).Nodup :=
  roster_ops_sorted_nodup ["Bo".data] _
    (List.sorted_singleton _) (List.nodup_singleton _)

/-- Removing a camp through the UI: the ManagementModal opens with a sorted
copy of `camps`, `handleRemoveItem` filters the name out, and Save persists
the result through `handleUpdateList('camps', ...)`.  Only the `camps`
field is written; the `schedule` field is untouched. -/
def removeCampViaModal (d : ScheduleDoc) (name : JStr) : ScheduleDoc :=
  { d with camps := handleUpdateList (handleRemoveItem (sortNames d.camps) name) }

/-- Removing a kid through the UI: same flow on the `allKids` field. -/
def removeKidViaModal (d : ScheduleDoc) (name : JStr) : ScheduleDoc :=
  { d with allKids := handleUpdateList (handleRemoveItem (sortNames d.allKids) name) }

/-- The scenario document of the spec: camps=["Art","Soccer"],
allKids=["Ann","Bo"], with the single assignment (1,0)=["Bo"]. -/
def demoDoc : ScheduleDoc :=
  { kidName := "Bo".data
    camps := ["Art".data, "Soccer".data]
    allKids := ["Ann".data, "Bo".data]
    schedule := [(cellKey 1 0, ["Bo".data])]
    startDate := "2025-06-23".data
    weekCount := 2 }

/-- C1 (refuted by the code): removing camp "Art" (index 0) updates only
the `camps` field.  The assignment map is not re-keyed: `get(0,0)` is `[]`
rather than the claimed `["Bo"]`, and the stale key `"1-0"` still holds
`["Bo"]` although camp index 1 is out of range for the remaining
single-camp list. -/
theorem removeCamp_leaves_assignment_stale :
    (removeCampViaModal demoDoc "Art".data).camps = ["Soccer".data]
    ∧ getCell (removeCampViaModal demoDoc "Art".data).schedule 0 0 = []
    ∧ objGet (removeCampViaModal demoDoc "Art".data).schedule (cellKey 1 0)
        = some ["Bo".data]
    ∧ (removeCampViaModal demoDoc "Art".data).camps.length = 1 := by
  decide

/-- C2 (refuted by the code): removing kid "Bo" from `allKids` updates only
the `allKids` field; the attendee list at cell (1,0) still contains "Bo". -/
theorem removeKid_leaves_attendee_stale :
    (removeKidViaModal demoDoc "Bo".data).allKids = ["Ann".data]
    ∧ "Bo".data ∈ getCell (removeKidViaModal demoDoc "Bo".data).schedule 1 0 := by
  decide

/-- The per-week search loop of `PrintableSummary`: walk the camps in
ascending camp-index order (the list is the not-yet-visited camps, `c` the
index of its head) and stop at the first camp whose attendee list for week
`w` contains the kid, reporting the camp name and the other attendees. -/
def findCampAux (sched : List (JStr × List JStr)) (kid : JStr) (w : Nat) :
    List JStr → Nat → Option (JStr × List JStr)
  | [], _ => none
  | camp :: rest, c =>
    if kid ∈ getCell sched c w then
      some (camp, (getCell sched c w).filter (· ≠ kid))
    else findCampAux sched kid w rest (c + 1)

/-- One week of the printable summary: `kidCamp` starts as the sentinel
`"No camp this week!"` with no friends and is replaced by the first match
of the camp loop. -/
def summarizeWeek (d : ScheduleDoc) (kid : JStr) (w : Nat) : JStr × List JStr :=
  match findCampAux d.schedule kid w d.camps 0 with
  | some r => r
  | none => ("No camp this week!".data, [])

theorem findCampAux_none (sched : List (JStr × List JStr)) (kid : JStr) (w : Nat) :
    ∀ (camps : List JStr) (c : Nat),
    (∀ i, i < camps.length → kid ∉ getCell sched (c + i) w) →
    findCampAux sched kid w camps c = none := by
  intro camps
  induction camps with
  | nil => intro c _; rfl
  | cons camp rest ih =>
    intro c h
    have h0 : kid ∉ getCell sched c w := by
      have := h 0 (by simp)
      simpa using this
    rw [findCampAux, if_neg h0]
    refine ih (c + 1) ?_
    intro i hi
    have := h (i + 1) (by simpa using Nat.succ_lt_succ hi)
    have harith : c + (i + 1) = c + 1 + i := by omega
    rwa [harith] at this

theorem findCampAux_first (sched : List (JStr × List JStr)) (kid : JStr) (w : Nat) :
    ∀ (camps : List JStr) (c i : Nat) (hi : i < camps.length),
    kid ∈ getCell sched (c + i) w →
    (∀ j, j < i → kid ∉ getCell sched (c + j) w) →
    findCampAux sched kid w camps c
      = some (camps.get ⟨i, hi⟩, (getCell sched (c + i) w).filter (· ≠ kid)) := by
  intro camps
  induction camps with
  | nil => intro c i hi; simp at hi
  | cons camp rest ih =>
    intro c i hi hmem hleast
    cases i with
    | zero =>
      rw [findCampAux, if_pos (by simpa using hmem)]
      simp only [List.get]
      rw [Nat.add_zero]
    | succ i =>
      have h0 : kid ∉ getCell sched c w := by
        have := hleast 0 (Nat.succ_pos i)
        simpa using this
      rw [findCampAux, if_neg h0]
      have hi' : i < rest.length := by simpa using Nat.lt_of_succ_lt_succ hi
      have hmem' : kid ∈ getCell sched (c + 1 + i) w := by
        have harith : c + (i + 1) = c + 1 + i := by omega
        rwa [harith] at hmem
      have hleast' : ∀ j, j < i → kid ∉ getCell sched (c + 1 + j) w := by
        intro j hj
        have := hleast (j + 1) (Nat.succ_lt_succ hj)
        have harith : c + (j + 1) = c + 1 + j := by omega
        rwa [harith] at this
      rw [ih (c + 1) i hi' hmem' hleast']
      have harith : c + 1 + i = c + (i + 1) := by omega
      rw [harith]
      rfl

/-- C5: for a week in range, the summary reports the camp with the lowest
camp index whose attendee list contains the kid, together with all other
names of that cell as co-attendees; a week in which no camp lists the kid
reports the sentinel `("No camp this week!", [])`. -/
theorem summary_first_match (d : ScheduleDoc) (kid : JStr) (w : Nat)
    (_hw : w < d.weekCount) :
    (∀ c (hc : c < d.camps.length),
      kid ∈ getCell d.schedule c w →
      (∀ c', c' < c → kid ∉ getCell d.schedule c' w) →
      summarizeWeek d kid w
        = (d.camps.get ⟨c, hc⟩, (getCell d.schedule c w).filter (· ≠ kid)))
    ∧ ((∀ c, c < d.camps.length → kid ∉ getCell d.schedule c w) →
      summarizeWeek d kid w = ("No camp this week!".data, [])) := by
  constructor
  · intro c hc hmem hleast
    unfold summarizeWeek
    rw [findCampAux_first d.schedule kid w d.camps 0 c hc
      (by simpa using hmem) (by simpa using hleast)]
    simp
  · intro hnone
    unfold summarizeWeek
    rw [findCampAux_none d.schedule kid w d.camps 0 (by simpa using hnone)]

/-- Witness for C5 on the scenario document: in week 0, "Bo" is listed only
at camp index 1 ("Soccer") with no co-attendees, and "Ann" is in no camp,
so she gets the sentinel. -/
theorem summary_first_match_witness :
    summarizeWeek demoDoc "Bo".data 0 = ("Soccer".data, [])
    ∧ summarizeWeek demoDoc "Ann".data 0 = ("No camp this week!".data, []) := by
  constructor
  · rw [(summary_first_match demoDoc "Bo".data 0 (by decide)).1 1 (by decide)
      (by decide) (by decide)]
    decide
  · rw [(summary_first_match demoDoc "Ann".data 0 (by decide)).2 (by decide)]

theorem findCampAux_congr (s₁ s₂ : List (JStr × List JStr)) (kid : JStr) (w : Nat)
    (h : ∀ c, getCell s₁ c w = getCell s₂ c w) :
    ∀ (camps : List JStr) (c : Nat),
    findCampAux s₁ kid w camps c = findCampAux s₂ kid w camps c := by
  intro camps
  induction camps with
  | nil => intro c; rfl
  | cons camp rest ih =>
    intro c
    rw [findCampAux, findCampAux, h c, ih (c + 1)]

/-- C8: a cell whose key is present with an empty attendee list is
indistinguishable from an absent key for every reader: removing such a key
changes no cell read `schedule[key] || []` (the grid rendering and the
edit dialog both read cells this way) and no week of the per-kid summary. -/
theorem absent_and_empty_cells_agree (d : ScheduleDoc) (c w : Nat)
    (h : objGet d.schedule (cellKey c w) = some []) :
    (∀ c' w', getCell (objRemove d.schedule (cellKey c w)) c' w'
        = getCell d.schedule c' w')
    ∧ (∀ kid w', summarizeWeek
        { d with schedule := objRemove d.schedule (cellKey c w) } kid w'
        = summarizeWeek d kid w') := by
  have hcell : ∀ c' w', getCell (objRemove d.schedule (cellKey c w)) c' w'
      = getCell d.schedule c' w' := by
    intro c' w'
    unfold getCell
    rw [objGet_objRemove]
    by_cases hk : cellKey c' w' = cellKey c w
    · rw [if_pos hk, hk, h]
      rfl
    · rw [if_neg hk]
  refine ⟨hcell, ?_⟩
  intro kid w'
  unfold summarizeWeek
  rw [findCampAux_congr _ d.schedule kid w' (fun c₀ => hcell c₀ w') d.camps 0]

/-- Witness for C8: in a map holding an explicit empty list at `"0-0"`,
removing that key changes neither the cell read nor Bo's week-0 summary. -/
theorem absent_and_empty_cells_agree_witness :
    getCell (objRemove [(cellKey 0 0, ([] : List JStr)),
        (cellKey 1 0, ["Bo".data])] (cellKey 0 0)) 0 0
      = getCell [(cellKey 0 0, ([] : List JStr)), (cellKey 1 0, ["Bo".data])] 0 0
    ∧ summarizeWeek
        { demoDoc with schedule := objRemove [(cellKey 0 0, ([] : List JStr)),
            (cellKey 1 0, ["Bo".data])] (cellKey 0 0) } "Bo".data 0
      = summarizeWeek
        { demoDoc with schedule := [(cellKey 0 0, ([] : List JStr)),
            (cellKey 1 0, ["Bo".data])] } "Bo".data 0 :=
  ⟨(absent_and_empty_cells_agree
      { demoDoc with schedule := [(cellKey 0 0, ([] : List JStr)),
          (cellKey 1 0, ["Bo".data])] } 0 0 (by decide)).1 0 0,
   (absent_and_empty_cells_agree
      { demoDoc with schedule := [(cellKey 0 0, ([] : List JStr)),
          (cellKey 1 0, ["Bo".data])] } 0 0 (by decide)).2 "Bo".data 0⟩

/-- JS `new Set(iterable)`: iterate in order, keeping only first
occurrences. -/
def jsSetFrom (l : List JStr) : List JStr :=
  l.foldl (fun s x => if x ∈ s then s else s ++ [x]) []

/-- `EditScheduleModal.handleCheckboxChange`: toggle the kid in the
selected set (`Set.delete` when present, `Set.add` when absent). -/
def handleCheckboxChange (s : List JStr) (kidName : JStr) : List JStr :=
  if kidName ∈ s then s.filter (· ≠ kidName) else s ++ [kidName]

/-- A sequence of checkbox clicks applied to the selected set. -/
def applyToggles (s : List JStr) : List JStr → List JStr
  | [] => s
  | k :: rest => applyToggles (handleCheckboxChange s k) rest

theorem nodup_append_singleton {x : JStr} {s : List JStr}
    (hn : s.Nodup) (hx : x ∉ s) : (s ++ [x]).Nodup := by
  rw [List.nodup_append]
  refine ⟨hn, List.nodup_singleton _, ?_⟩
  intro a ha hb
  rw [List.mem_singleton] at hb
  exact hx (hb ▸ ha)

theorem handleCheckboxChange_nodup (s : List JStr) (k : JStr) (hn : s.Nodup) :
    (handleCheckboxChange s k).Nodup := by
  unfold handleCheckboxChange
  by_cases hk : k ∈ s
  · rw [if_pos hk]
    exact List.Nodup.filter _ hn
  · rw [if_neg hk]
    exact nodup_append_singleton hn hk

theorem jsSetFrom_nodup (l : List JStr) : (jsSetFrom l).Nodup := by
  have aux : ∀ (l : List JStr) (s : List JStr), s.Nodup →
      (l.foldl (fun s x => if x ∈ s then s else s ++ [x]) s).Nodup := by
    intro l
    induction l with
    | nil => intro s hs; exact hs
    | cons x rest ih =>
      intro s hs
      rw [List.foldl_cons]
      refine ih _ ?_
      by_cases hx : x ∈ s
      · rw [if_pos hx]; exact hs
      · rw [if_neg hx]; exact nodup_append_singleton hs hx
  exact aux l [] List.nodup_nil

/-- C9: the attendee list submitted by the edit dialog — the selected set
built from the current attendees and any sequence of checkbox toggles —
never contains a duplicate name, whatever the starting attendee list. -/
theorem submitted_attendees_nodup (currentAttendees : List JStr)
    (clicks : List JStr) :
    (applyToggles (jsSetFrom currentAttendees) clicks).Nodup := by
  have aux : ∀ (clicks : List JStr) (s : List JStr), s.Nodup →
      (applyToggles s clicks).Nodup := by
    intro clicks
    induction clicks with
    | nil => intro s hs; exact hs
    | cons k rest ih =>
      intro s hs
      rw [applyToggles]
      exact ih _ (handleCheckboxChange_nodup s k hs)
  exact aux clicks _ (jsSetFrom_nodup currentAttendees)

/-- The fixed eight-token colour palette `kidColors` of `ScheduleGrid`. -/
def kidColors : List JStr :=
  ["bg-blue-200 text-blue-800".data, "bg-green-200 text-green-800".data,
   "bg-yellow-200 text-yellow-800".data, "bg-purple-200 text-purple-800".data,
   "bg-pink-200 text-pink-800".data, "bg-indigo-200 text-indigo-800".data,
   "bg-red-200 text-red-800".data, "bg-teal-200 text-teal-800".data]

/-- JS `Array.prototype.indexOf`: the index of the first occurrence, `-1`
when the element is absent. -/
def jsIndexOf (l : List JStr) (x : JStr) : Int :=
  if x ∈ l then (l.indexOf x : Int) else -1

/-- JS array subscript with an integer index: `undefined` (here `none`)
outside `[0, length)`. -/
def jsArrayGet (l : List JStr) (i : Int) : Option JStr :=
  if h : 0 ≤ i ∧ i.toNat < l.length then some (l.get ⟨i.toNat, h.2⟩) else none

/-- `ScheduleGrid.getKidColor`: sort a copy of `allKids`, take the kid's
index in it, and subscript the palette at `index % kidColors.length`.
JS `%` is the truncating remainder (sign of the dividend), `Int.tmod`. -/
def getKidColor (allKids : List JStr) (kidName : JStr) : Option JStr :=
  jsArrayGet kidColors
    (Int.tmod (jsIndexOf (sortNames allKids) kidName) (kidColors.length : Int))

theorem mem_sortNames {x : JStr} {l : List JStr} (h : x ∈ l) : x ∈ sortNames l :=
  (List.Perm.mem_iff (List.perm_insertionSort (· ≤ ·) l)).mpr h

theorem not_mem_sortNames {x : JStr} {l : List JStr} (h : x ∉ l) : x ∉ sortNames l :=
  fun hc => h ((List.Perm.mem_iff (List.perm_insertionSort (· ≤ ·) l)).mp hc)

theorem getKidColor_mem_eq (allKids : List JStr) (kidName : JStr)
    (h : kidName ∈ allKids) :
    getKidColor allKids kidName
      = kidColors.get? ((sortNames allKids).indexOf kidName % kidColors.length) := by
  have hmem : kidName ∈ sortNames allKids := mem_sortNames h
  unfold getKidColor jsIndexOf
  rw [if_pos hmem, ← Int.ofNat_tmod]
  unfold jsArrayGet
  have hlt : (sortNames allKids).indexOf kidName % kidColors.length < kidColors.length :=
    Nat.mod_lt _ (by decide)
  rw [dif_pos ⟨Int.ofNat_nonneg _, by simpa using hlt⟩]
  rw [List.get?_eq_get (by simpa using hlt)]
  congr 1

/-- C6: for a kid present in `allKids`, the displayed colour is exactly
`kidColors[index(kid, sorted allKids) % kidColors.length]`, where the
palette is the fixed ordered list of 8 distinct colour tokens; the colour
is a function of the kid's sorted rank only. -/
theorem kid_color_formula (allKids : List JStr) (kidName : JStr)
    (h : kidName ∈ allKids) :
    (kidColors.length = 8 ∧ kidColors.Nodup)
    ∧ getKidColor allKids kidName
        = kidColors.get? ((sortNames allKids).indexOf kidName % kidColors.length) :=
  ⟨⟨by decide, by decide⟩, getKidColor_mem_eq allKids kidName h⟩

/-- Witness for C6: with allKids=["Bo","Ann"], Bo has sorted rank 1 and
gets the second palette entry. -/
theorem kid_color_formula_witness :
    getKidColor ["Bo".data, "Ann".data] "Bo".data
      = kidColors.get? (((sortNames ["Bo".data, "Ann".data]).indexOf "Bo".data)
          % kidColors.length)
    ∧ getKidColor ["Bo".data, "Ann".data] "Bo".data
      = some "bg-green-200 text-green-800".data := by
  constructor
  · exact (kid_color_formula ["Bo".data, "Ann".data] "Bo".data (by decide)).2
  · rw [(kid_color_formula ["Bo".data, "Ann".data] "Bo".data (by decide)).2]
    decide

/-- C10: the colour function is total only on members of `allKids`.  For a
kid not in the list, `indexOf` yields `-1`, the JS remainder `-1 % 8` is
`-1`, and the palette subscript falls outside the array: no colour token is
returned.  For a member, some palette token is always returned. -/
theorem kid_color_requires_membership (allKids : List JStr) (kidName : JStr) :
    (kidName ∉ allKids →
      jsIndexOf (sortNames allKids) kidName = -1
      ∧ getKidColor allKids kidName = none)
    ∧ (kidName ∈ allKids →
      ∃ color ∈ kidColors, getKidColor allKids kidName = some color) := by
  constructor
  · intro h
    have hidx : jsIndexOf (sortNames allKids) kidName = -1 := by
      unfold jsIndexOf
      rw [if_neg (not_mem_sortNames h)]
    refine ⟨hidx, ?_⟩
    unfold getKidColor
    rw [hidx]
    decide
  · intro h
    rw [getKidColor_mem_eq allKids kidName h]
    have hlt : (sortNames allKids).indexOf kidName % kidColors.length < kidColors.length :=
      Nat.mod_lt _ (by decide)
    rw [List.get?_eq_get hlt]
    exact ⟨_, List.get_mem _ _ _, rfl⟩

/-- Witness for C10: "Zed" is not in ["Ann"], so no colour; "Ann" is, so
some palette colour. -/
theorem kid_color_requires_membership_witness :
    getKidColor ["Ann".data] "Zed".data = none
    ∧ ∃ color ∈ kidColors, getKidColor ["Ann".data] "Ann".data = some color :=
  ⟨((kid_color_requires_membership ["Ann".data] "Zed".data).1 (by decide)).2,
   (kid_color_requires_membership ["Ann".data] "Ann".data).2 (by decide)⟩

/-- The base-36 digit alphabet used by JS `Number.prototype.toString(36)`. -/
def base36Digits : JStr := "0123456789abcdefghijklmnopqrstuvwxyz".data

/-- Uppercase alphanumeric tokens. -/
def upperAlnum : JStr := "0123456789ABCDEFGHIJKLMNOPQRSTUVWXYZ".data

/-- `Math.random().toString(36)` for a value in `[0,1)`: the string `"0"`
for zero, otherwise `"0."` followed by the (shortest round-tripping)
base-36 digits of the fraction.  The digit list is the abstraction of the
random draw. -/
def randToString36 (digits : JStr) : JStr :=
  if digits = [] then "0".data else '0' :: '.' :: digits

/-- The id expression of `Dashboard.handleCreateSchedule`:
`Math.random().toString(36).substring(2, 8).toUpperCase()`. -/
def newScheduleId (digits : JStr) : JStr :=
  (((randToString36 digits).drop 2).take 6).map Char.toUpper

/-- `handleCreateSchedule`: build the id and `setDoc` the fresh document at
it unconditionally — no read of the store, no existence check, a full
overwrite of whatever was at that id. -/
def handleCreateSchedule (store : List (JStr × ScheduleDoc)) (digits : JStr)
    (kidName : JStr) : List (JStr × ScheduleDoc) :=
  objSet store (newScheduleId digits)
    { kidName := kidName, camps := [], allKids := [kidName], schedule := [],
      startDate := "2025-06-23".data, weekCount := 8 }

/-- C7 counterexample: `Math.random()` can return exactly `0.5`, whose
base-36 rendering is `"0.i"`; the resulting identifier is the single
character `"I"`, not a 6-character token. -/
theorem newScheduleId_not_always_six :
    newScheduleId ['i'] = ['I'] ∧ (newScheduleId ['i']).length ≠ 6 := by
  decide

theorem toUpper_base36 : ∀ c ∈ base36Digits, Char.toUpper c ∈ upperAlnum := by
  decide

/-- C7 (amended): an identifier is an uppercase-alphanumeric token of at
most 6 characters — exactly 6 whenever the random fraction has at least 6
base-36 digits — and creation performs no uniqueness check: it writes the
fresh document at the id unconditionally, overwriting any schedule already
stored there. -/
theorem newScheduleId_shape (digits : JStr) (h : ∀ c ∈ digits, c ∈ base36Digits) :
    (newScheduleId digits).length ≤ 6
    ∧ (∀ c ∈ newScheduleId digits, c ∈ upperAlnum)
    ∧ (6 ≤ digits.length → (newScheduleId digits).length = 6)
    ∧ (∀ (store : List (JStr × ScheduleDoc)) (kidName : JStr),
        objGet (handleCreateSchedule store digits kidName) (newScheduleId digits)
          = some { kidName := kidName, camps := [], allKids := [kidName],
                   schedule := [], startDate := "2025-06-23".data, weekCount := 8 }) := by
  have hdrop : ((randToString36 digits).drop 2) = digits := by
    unfold randToString36
    by_cases hd : digits = []
    · rw [if_pos hd, hd]
      rfl
    · rw [if_neg hd]
      rfl
  refine ⟨?_, ?_, ?_, ?_⟩
  · rw [newScheduleId, hdrop, List.length_map, List.length_take]
    exact min_le_left _ _
  · intro c hc
    rw [newScheduleId, hdrop] at hc
    obtain ⟨c', hc', rfl⟩ := List.mem_map.mp hc
    exact toUpper_base36 c' (h c' (List.mem_of_mem_take hc'))
  · intro hlen
    rw [newScheduleId, hdrop, List.length_map, List.length_take]
    omega
  · intro store kidName
    exact objGet_objSet_self store (newScheduleId digits) _

/-- Witness for C7 (amended) at the draw `0.76551…` with base-36 digits
`"rk3v0z"`: a 6-character uppercase alphanumeric id that overwrites any
schedule stored at the same id. -/
theorem newScheduleId_shape_witness :
    (newScheduleId "rk3v0z".data).length = 6
    ∧ objGet (handleCreateSchedule [(newScheduleId "rk3v0z".data, demoDoc)]
        "rk3v0z".data "Ann".data) (newScheduleId "rk3v0z".data)
      = some { kidName := "Ann".data, camps := [], allKids := ["Ann".data],
               schedule := [], startDate := "2025-06-23".data, weekCount := 8 } :=
  ⟨(newScheduleId_shape "rk3v0z".data (by decide)).2.2.1 (by decide),
   (newScheduleId_shape "rk3v0z".data (by decide)).2.2.2
     [(newScheduleId "rk3v0z".data, demoDoc)] "Ann".data⟩

end CampPlanner
